import Mathlib

/-!
Verification of the CrawlX mailbox-to-archive pipeline.

Strings are modelled as `List Char`.  Machinery that lives in external
libraries (the HTML parser, the IMAP and Telegram transports, the HTTP
client) is abstracted: an HTML document is represented by what the parser
yields from it (its anchor hrefs in document order and its text rendering),
and network endpoints are represented by response-valued functions.
Python's `\w` character class is modelled over ASCII; Python's `\s` and
`str.strip()` whitespace are modelled by `Char.isWhitespace`.
-/

/-- Python `str.strip()`-style whitespace test (modelled by `Char.isWhitespace`). -/
def isPySpace (c : Char) : Bool := c.isWhitespace

/-- Python `str.strip()`: drop whitespace from both ends. -/
def pstrip (s : List Char) : List Char :=
  ((s.dropWhile isPySpace).reverse.dropWhile isPySpace).reverse

/-- `url.split('?')[0]`: the prefix of the string before the first `'?'`. -/
def cleanUrl (s : List Char) : List Char := s.takeWhile (fun c => c != '?')

/-- The character class `[\w.-]` of the article-URL regexes (`\w` over ASCII). -/
def isWordDotDash (c : Char) : Bool :=
  c.isAlphanum || c = '_' || c = '.' || c = '-'

/-- The fixed literal prefix `https://medium.com/@` of the article-URL regexes. -/
def medStart : List Char := "https://medium.com/@".data

/-- `re.match(r'https://medium\.com/@[\w.-]+/[^?]+', url)` as a Boolean test.
`re.match` anchors at the start only, so the pattern succeeds iff the string
starts with the literal prefix, then a nonempty maximal `[\w.-]` run (maximal
because `/` is not in the class, so no backtracking choice exists), then `/`,
then at least one character other than `'?'`. -/
def qualifies (s : List Char) : Bool :=
  if medStart.isPrefixOf s then
    let rest := s.drop medStart.length
    (!(rest.takeWhile isWordDotDash).isEmpty) &&
    (match rest.dropWhile isWordDotDash with
     | a :: c :: _ => a == '/' && c != '?'
     | _ => false)
  else false

/-- The accumulator loop of `extract_urls_from_html`: for each href (in
document order), strip it, keep it if it matches the article regex, remove
its query string, and append it unless the canonical form was already seen. -/
def extractUrlsGo : List (List Char) → List (List Char) → List (List Char)
  | [], acc => acc
  | h :: rest, acc =>
    let url := pstrip h
    if qualifies url then
      let c := cleanUrl url
      if c ∈ acc then extractUrlsGo rest acc else extractUrlsGo rest (acc ++ [c])
    else extractUrlsGo rest acc

/-- `EmailProcessor.extract_urls_from_html`, over the list of anchor `href`
values the HTML parser yields in document order (the BeautifulSoup
`find_all('a', href=True)` traversal is abstracted as that list; the
regex-fallback path taken only when the parser itself raises is not
modelled, as the pure embedding has no parser exceptions). -/
def extractUrlsFromHtml (hrefs : List (List Char)) : List (List Char) :=
  extractUrlsGo hrefs []

-- Basic sanity checks on the embedding.
example : qualifies "https://medium.com/@alice/my-story".data = true := by decide
example : qualifies "https://medium.com/@alice/?x".data = false := by decide
example : qualifies "https://medium.com/alice/story".data = false := by decide
example :
    extractUrlsFromHtml ["https://medium.com/@a/s?src=1".data, "https://medium.com/@a/s?src=2".data]
      = ["https://medium.com/@a/s".data] := by decide

/-! ## The email message model and `get_email_body` -/

/-- An HTML payload, represented by what the parser extracts from it:
the raw decoded byte text, the anchor `href` values in document order, and
the text rendering (`soup.get_text`) used as the plain-text body. -/
structure Html where
  raw : List Char
  anchors : List (List Char)
  textContent : List Char
deriving DecidableEq

/-- One part of a multipart email: its content type and its decoded payload
(`get_payload(decode=True)` may yield nothing for container parts). -/
structure EmailPart where
  contentType : List Char
  payload : Option Html
deriving DecidableEq

/-- A parsed email message: the parts yielded by `email_message.walk()`,
in walk order. -/
structure EmailMsg where
  parts : List EmailPart
deriving DecidableEq

/-- Collapse each whitespace run to a single space: the net effect of the
`re.sub(r'\n\s*\n', ...)` / `re.sub(r'\s+', ' ', body)` cleanup chain. -/
def collapseWs (s : List Char) : List Char :=
  s.foldr
    (fun c acc =>
      if isPySpace c then
        match acc with
        | ' ' :: _ => acc
        | _ => ' ' :: acc
      else c :: acc) []

/-- Whitespace normalization applied to the extracted body text. -/
def normalizeWs (s : List Char) : List Char := pstrip (collapseWs s)

/-- `EmailProcessor.get_email_body`: find the first `text/html` part of the
walk; when none exists, or its payload is missing or empty, return an empty
body and an empty URL list (no fallback to `text/plain`, no exception);
otherwise extract URLs from the raw HTML and render the body text. -/
def getEmailBody (m : EmailMsg) : List Char × List (List Char) :=
  match m.parts.find? (fun p => p.contentType = "text/html".data) with
  | none => ([], [])
  | some part =>
    match part.payload with
    | none => ([], [])
    | some h =>
      if h.raw.isEmpty then ([], [])
      else (normalizeWs h.textContent, extractUrlsFromHtml h.anchors)

/-! ## The highlight search and `extract_article_urls` -/

/-- The character class `[^?\s<>"]` of the highlight regex. -/
def isUrlChar (c : Char) : Bool :=
  !(c = '?' || c = '<' || c = '>' || c = '"' || c.isWhitespace)

/-- The literal marker phrase of the highlight regex. -/
def hlMarker : List Char := "Today's highlights".data

/-- Greedy backtracking over the `[^?\s<>"]+` run: try the slug length `k`
from the maximal run length downward; a candidate works when, after `k`
slug characters, skipping `\s*` (forced to the maximal whitespace run since
the marker starts with a non-whitespace character) leaves the marker as a
prefix.  Returns the chosen slug length. -/
def hlTryK (tail : List Char) : Nat → Option Nat
  | 0 => none
  | k + 1 =>
    if hlMarker.isPrefixOf ((tail.drop (k + 1)).dropWhile isPySpace) then some (k + 1)
    else hlTryK tail k

/-- One anchored attempt of
`re.match(r'(https://medium\.com/@[\w.-]+/[^?\s<>"]+)\s*Today's highlights', s)`;
returns `group(1)` on success. -/
def hlTryAt (s : List Char) : Option (List Char) :=
  if medStart.isPrefixOf s then
    if ((s.drop medStart.length).takeWhile isWordDotDash).isEmpty then none
    else
      match (s.drop medStart.length).dropWhile isWordDotDash with
      | a :: tail =>
        if a == '/' then
          match hlTryK tail (tail.takeWhile isUrlChar).length with
          | some k =>
            some (medStart ++ (s.drop medStart.length).takeWhile isWordDotDash
              ++ a :: tail.take k)
          | none => none
        else none
      | _ => none
  else none

/-- `re.search` over the body: try the anchored match at every start
position, left to right, returning the first successful `group(1)`. -/
def findHighlight : List Char → Option (List Char)
  | [] => none
  | c :: cs =>
    match hlTryAt (c :: cs) with
    | some g => some g
    | none => findHighlight cs

/-- The result dictionary of `extract_article_urls`. -/
structure UrlsDict where
  highlightsUrl : Option (List Char)
  mediumUrls : List (List Char)
  otherUrls : List (List Char)
deriving DecidableEq

/-- The accumulator loop of `extract_article_urls`: skip the URL equal to
the highlight, keep regex-matching URLs, dedupe preserving order. -/
def articleUrlsGo (hl : Option (List Char)) :
    List (List Char) → List (List Char) → List (List Char)
  | [], acc => acc
  | url :: rest, acc =>
    if hl = some url then articleUrlsGo hl rest acc
    else if qualifies url then
      if url ∈ acc then articleUrlsGo hl rest acc
      else articleUrlsGo hl rest (acc ++ [url])
    else articleUrlsGo hl rest acc

/-- `EmailProcessor.extract_article_urls`: search the body text for a
qualifying URL immediately preceding the marker phrase, categorize the
remaining URLs, and raise `ValueError` when neither a highlight nor any
article URL was found (Python truthiness of the highlight string is
modelled by emptiness of its optional value). -/
def extractArticleUrls (emailContent : List Char) (allUrls : List (List Char)) :
    Except (List Char) UrlsDict :=
  let hl := (findHighlight emailContent).map cleanUrl
  let med := articleUrlsGo hl allUrls []
  if ((hl.getD []).isEmpty && med.isEmpty) then
    .error "No Medium article URLs found in the email".data
  else .ok ⟨hl, med, []⟩

example :
    findHighlight "see https://medium.com/@a/b Today's highlights now".data
      = some "https://medium.com/@a/b".data := by decide
example :
    findHighlight "https://medium.com/@a/bToday's highlights".data
      = some "https://medium.com/@a/b".data := by decide
example : findHighlight "no url Today's highlights".data = none := by decide

/-! ## The archive scraper (`archive_and_save_content`) -/

/-- An HTTP response, abstracted to what the scraper consumes: the success
flag, the status code, the final URL after redirects, the value of the
`input[name="submitid"]` field the parser finds on the page (if any), and
whether any of the content selectors matches a node. -/
structure Resp where
  ok : Bool
  status : Nat
  finalUrl : List Char
  submitid : Option (List Char)
  contentFound : Bool

/-- The network, abstracted as the responses the three GETs receive. -/
structure Net where
  landing : Resp
  submit : List Char → Resp
  fetchPage : List Char → Resp

/-- Decimal rendering of a number (for interpolated status codes, indices
and message identifiers). -/
def natStr (n : Nat) : List Char := Nat.toDigits 10 n

/-- Uppercase hex digit. -/
def hexDig (n : Nat) : Char :=
  if n < 10 then Char.ofNat (48 + n) else Char.ofNat (55 + n)

/-- `urllib.parse.quote` with its default `safe='/'`, over ASCII input:
keep unreserved characters and `/`, percent-encode the rest. -/
def pquote (s : List Char) : List Char :=
  (s.map (fun c =>
    if c.isAlphanum || c = '_' || c = '.' || c = '-' || c = '~' || c = '/' then [c]
    else ['%', hexDig (c.toNat / 16 % 16), hexDig (c.toNat % 16)])).flatten

/-- The scan of `str.replace(pat, repl)`, with a step budget: at each
position, a nonempty occurrence of `pat` is replaced and skipped, otherwise
one character is kept.  Each step consumes at least one character, so a
budget of the string's length runs the scan to completion. -/
def replaceAllGo (pat repl : List Char) : Nat → List Char → List Char
  | 0, s => s
  | _ + 1, [] => []
  | fuel + 1, c :: cs =>
    if pat.isPrefixOf (c :: cs) && !pat.isEmpty then
      repl ++ replaceAllGo pat repl fuel ((c :: cs).drop pat.length)
    else c :: replaceAllGo pat repl fuel cs

/-- `str.replace(pat, repl)`: replace every occurrence, left to right. -/
def replaceAll (pat repl s : List Char) : List Char :=
  replaceAllGo pat repl s.length s

/-- `target_url.split("/")[-1]`: the segment after the last slash. -/
def lastSegment (s : List Char) : List Char :=
  ((s.splitOn '/').getLast? ).getD []

/-- `filename.endswith(".md")`. -/
def endsWithMd (s : List Char) : Bool := ".md".data.isSuffixOf s

/-- The markdown filename derived from the target URL: last path segment,
dashes replaced by underscores, with `.md` appended when missing. -/
def mdFilename (targetUrl : List Char) : List Char :=
  let f := (lastSegment targetUrl).map (fun c => if c = '-' then '_' else c)
  if endsWithMd f then f else f ++ ".md".data

/-- `archive_and_save_content`: bootstrap the landing page for a submitid,
submit the percent-encoded target URL, treat the final redirect URL as the
archived URL, fetch and parse it, and save the extracted content; the
function returns the pair of local file paths (markdown path, HTML path) —
the archived URL itself is only written inside the markdown file, never
returned.  Failures raise (modelled as `Except.error` with the exception
message). -/
def archiveAndSaveContent (net : Net) (targetUrl : List Char)
    (outputDir : List Char := "archived_content".data) :
    Except (List Char) (List Char × List Char) :=
  let resp1 := net.landing
  if !resp1.ok then
    .error ("Failed to access archive.ph: ".data ++ natStr resp1.status)
  else
    match resp1.submitid with
    | none => .error "Could not find submitid".data
    | some sid =>
      let submitUrl :=
        "https://archive.ph/submit/?submitid=".data ++ sid ++ "&url=".data ++ pquote targetUrl
      let resp2 := net.submit submitUrl
      if !resp2.ok then
        .error ("Failed to submit URL: ".data ++ natStr resp2.status)
      else
        let archivedUrl := resp2.finalUrl
        let resp3 := net.fetchPage archivedUrl
        if !resp3.ok then
          .error ("Failed to get archived content: ".data ++ natStr resp3.status)
        else if !resp3.contentFound then
          .error "Could not find content div".data
        else
          let filename := mdFilename targetUrl
          let outputPath := outputDir ++ '/' :: filename
          let htmlPath :=
            outputDir ++ "/html/".data ++ replaceAll ".md".data ".html".data filename
          .ok (outputPath, htmlPath)

example :
    mdFilename "https://medium.com/@alice/my-story".data = "my_story.md".data := by decide

/-! ## The processor (`process_email`) and orchestrator (`process_new_emails`) -/

/-- Modelled from the spec: `get_archived_url`, imported by
`email_processor.py` from `utils.archive_scraper`, is not defined anywhere
in the repository sources; per the spec's ArchiveClient contract it is a
blocking `archive(url) -> archivedUrl` call returning the archived URL as
text or raising an `ArchiveError`.  It is modelled as an arbitrary function
from a URL to either an archived URL or an error message, threaded through
the orchestration as a parameter. -/
def ArchiveFn : Type := List Char → Except (List Char) (List Char)

/-- Whether an archive call succeeded. -/
def isOkE {ε α : Type} : Except ε α → Bool
  | .ok _ => true
  | .error _ => false

/-- An observable action of the orchestration: a Notifier send, an
identifier added to the processed set, or a message flagged read. -/
inductive Ev where
  | notif (text : List Char)
  | addProcessed (id : Nat)
  | markRead (id : Nat)
deriving DecidableEq

/-- The per-URL loop of `process_email`: re-check the article regex, strip
the query string, call the archive function, record successes, swallow
per-URL failures and continue.  Returns the URLs passed to the archive call
(in order) and the (original, archived) success pairs (in order). -/
def archiveLoop (arch : ArchiveFn) :
    List (List Char) → List (List Char) × List (List Char × List Char)
  | [] => ([], [])
  | url :: rest =>
    let r := archiveLoop arch rest
    if qualifies url then
      let c := cleanUrl url
      match arch c with
      | .ok a => (c :: r.1, (c, a) :: r.2)
      | .error _ => (c :: r.1, r.2)
    else r

/-- The `ValueError` message raised when nothing was archived. -/
def valErrMsg : List Char := "No Medium articles were found to archive".data

/-- The error notification `process_email` sends before re-raising. -/
def procErrNotif (e : List Char) : List Char :=
  "❌ Error processing email: ".data ++ e

/-- One numbered line of the success notification. -/
def articleLine (i : Nat) (oa : List Char × List Char) : List Char :=
  '\n' :: (natStr i ++ ". Original: ".data ++ oa.1
    ++ "\n   Archived: ".data ++ oa.2)

/-- The numbered article lines, starting at index `i`. -/
def numberedLines (i : Nat) : List (List Char × List Char) → List (List Char)
  | [] => []
  | a :: rest => articleLine i a :: numberedLines (i + 1) rest

/-- `'\n'.join(message_parts)`. -/
def joinNl : List (List Char) → List Char
  | [] => []
  | [p] => p
  | p :: ps => p ++ '\n' :: joinNl ps

/-- The consolidated success notification text of `process_email`: built
from the success pairs only (`now` is the interpolated timestamp); failed
URLs are only logged and never appear in it. -/
def buildMessage (processed : List (List Char × List Char)) (now : List Char) :
    List Char :=
  joinNl (["📚 New Medium Articles Archived!\n".data,
           "📥 Archived Articles:".data]
          ++ numberedLines 1 processed
          ++ ["\n\n⏰ Processed at: ".data ++ now,
              "\nUse /help to see available commands".data])

/-- The outcome of one `process_email` call. -/
structure PE where
  attempts : List (List Char)
  processed : List (List Char × List Char)
  events : List Ev
  outcome : Except (List Char) Unit

/-- `EmailProcessor.process_email`: extract URLs from the message body,
archive each qualifying URL (continuing past per-URL failures), then either
raise `ValueError` after sending an error notification (when nothing was
archived) or send the consolidated success notification and return. -/
def processEmail (arch : ArchiveFn) (now : List Char) (msg : EmailMsg) : PE :=
  let allUrls := (getEmailBody msg).2
  let r := archiveLoop arch allUrls
  if r.2.isEmpty then
    ⟨r.1, r.2, [.notif (procErrNotif valErrMsg)], .error valErrMsg⟩
  else
    ⟨r.1, r.2, [.notif (buildMessage r.2 now)], .ok ()⟩

/-- The error notification the outer handler of `process_new_emails` sends
when `process_email` raises (message identifiers are modelled as numbers). -/
def outerErrNotif (mid : Nat) (e : List Char) : List Char :=
  "❌ Error processing email ".data ++ natStr mid ++ ": ".data ++ e

/-- `EmailChecker.process_new_emails`, given the identifiers the unseen
search returned and the current processed set: skip identifiers already in
the set; otherwise fetch and process the message; on success add it to the
set and mark it read; on failure send the outer error notification and
continue with the next message, leaving the set and the read flag
untouched.  Returns the final processed set and the ordered event trace. -/
def processNewEmails (arch : ArchiveFn) (now : List Char) (fetch : Nat → EmailMsg) :
    List Nat → List Nat → List Nat × List Ev
  | [], st => (st, [])
  | mid :: rest, st =>
    if mid ∈ st then processNewEmails arch now fetch rest st
    else
      let pe := processEmail arch now (fetch mid)
      match pe.outcome with
      | .ok _ =>
        let r := processNewEmails arch now fetch rest (st ++ [mid])
        (r.1, pe.events ++ [.addProcessed mid, .markRead mid] ++ r.2)
      | .error e =>
        let r := processNewEmails arch now fetch rest st
        (r.1, pe.events ++ [.notif (outerErrNotif mid e)] ++ r.2)

/-! ## The main loop (`EmailChecker.run`) -/

/-- The environment of one `run` invocation: the outcome of
`connect_to_imap` and the outcome of the `k`-th `process_new_emails` call
(`k = 0` is the immediate first check performed before the `while` loop). -/
structure RunEnv where
  connectRes : Except (List Char) Unit
  checkRes : Nat → Except (List Char) Unit

/-- Observable steps of `run`. -/
inductive REv where
  | connected
  | connectFailed (e : List Char)
  | statusMsg
  | sleepSec (n : Nat)
  | check (k : Nat)
  | errNotif (e : List Char)
  | fatalNotif (e : List Char)
deriving DecidableEq

/-- How a bounded unfolding of `run` ended: the process raised out of
`run`, or the iteration budget ran out with the loop still going. -/
inductive ROut where
  | raised (e : List Char)
  | fuelOut
deriving DecidableEq

/-- The `while True` body of `run`, iterated `fuel` times starting at check
number `k`: send the next-check status, sleep the poll interval, run the
check; when the check raises, send the error notification and sleep the
fixed 60-second backoff, then continue the loop — it neither reconnects nor
terminates. -/
def runLoop (env : RunEnv) (interval : Nat) : Nat → Nat → List REv × ROut
  | _, 0 => ([], .fuelOut)
  | k, fuel + 1 =>
    let hd := [REv.statusMsg, REv.sleepSec interval, REv.check k]
    match env.checkRes k with
    | .ok _ =>
      let r := runLoop env interval (k + 1) fuel
      (hd ++ r.1, r.2)
    | .error e =>
      let r := runLoop env interval (k + 1) fuel
      (hd ++ [REv.errNotif e, REv.sleepSec 60] ++ r.1, r.2)

/-- `EmailChecker.run`: connect once; a connection failure is caught by the
outer handler, which sends the fatal notification and re-raises, ending the
process.  Then run the immediate first check — an exception there also
propagates to the outer handler (the inner `try` only catches
cancellation).  Then enter the `while` loop. -/
def runModel (env : RunEnv) (interval fuel : Nat) : List REv × ROut :=
  match env.connectRes with
  | .error e =>
    ([REv.connectFailed e,
      REv.fatalNotif ("Fatal error: ".data ++ "Failed to connect to IMAP server: ".data ++ e)],
     .raised e)
  | .ok _ =>
    match env.checkRes 0 with
    | .error e =>
      ([REv.connected, REv.check 0, REv.fatalNotif ("Fatal error: ".data ++ e)], .raised e)
    | .ok _ =>
      let r := runLoop env interval 1 fuel
      ([REv.connected, REv.check 0] ++ r.1, r.2)

/-! ## Helper lemmas about character runs -/

theorem takeWhile_append_all {p : Char → Bool} {l₁ : List Char} (l₂ : List Char)
    (h : ∀ c ∈ l₁, p c = true) :
    (l₁ ++ l₂).takeWhile p = l₁ ++ l₂.takeWhile p := by
  induction l₁ with
  | nil => simp
  | cons a t ih =>
    have ha : p a = true := h a (List.mem_cons_self a t)
    simp [List.takeWhile_cons, ha, ih (fun c hc => h c (List.mem_cons_of_mem a hc))]

theorem dropWhile_append_all {p : Char → Bool} {l₁ : List Char} (l₂ : List Char)
    (h : ∀ c ∈ l₁, p c = true) :
    (l₁ ++ l₂).dropWhile p = l₂.dropWhile p := by
  induction l₁ with
  | nil => simp
  | cons a t ih =>
    have ha : p a = true := h a (List.mem_cons_self a t)
    simp [List.dropWhile_cons, ha, ih (fun c hc => h c (List.mem_cons_of_mem a hc))]

theorem wordDotDash_ne_qmark {c : Char} (h : isWordDotDash c = true) : (c != '?') = true := by
  by_contra hq
  rw [Bool.not_eq_true, bne_eq_false_iff_eq] at hq
  subst hq
  exact absurd h (by decide)

theorem wordDotDash_not_slash {c : Char} (h : isWordDotDash c = true) : c ≠ '/' := by
  intro he
  subst he
  exact absurd h (by decide)

/-- Structural characterization of the article-URL regex test. -/
theorem qualifies_iff {s : List Char} :
    qualifies s = true ↔
      ∃ run c tail, s = medStart ++ run ++ '/' :: c :: tail ∧ run ≠ [] ∧
        (∀ x ∈ run, isWordDotDash x = true) ∧ (c != '?') = true := by
  constructor
  · intro h
    unfold qualifies at h
    split at h
    case isFalse => exact absurd h (by simp)
    case isTrue hpre =>
      obtain ⟨t, ht⟩ := List.isPrefixOf_iff_prefix.mp hpre
      have hrest : s.drop medStart.length = t := by rw [← ht, List.drop_left]
      rw [hrest] at h
      obtain ⟨hrun, hmatch⟩ := Bool.and_eq_true_iff.mp h
      cases hdrop : t.dropWhile isWordDotDash with
      | nil => rw [hdrop] at hmatch; exact absurd hmatch (by simp)
      | cons a u =>
        cases u with
        | nil => rw [hdrop] at hmatch; exact absurd hmatch (by simp)
        | cons c tl =>
          rw [hdrop] at hmatch
          obtain ⟨ha, hc⟩ := Bool.and_eq_true_iff.mp hmatch
          have ha' : a = '/' := eq_of_beq ha
          refine ⟨t.takeWhile isWordDotDash, c, tl, ?_, ?_, ?_, hc⟩
          · rw [← ht, List.append_assoc]
            congr 1
            conv_lhs => rw [← List.takeWhile_append_dropWhile isWordDotDash t]
            rw [hdrop, ha']
          · intro hempty
            rw [hempty] at hrun
            exact absurd hrun (by simp)
          · exact fun x hx => List.mem_takeWhile_imp hx
  · rintro ⟨run, c, tail, hs, hne, hclass, hc⟩
    have hslash : ∀ x ∈ run, x ≠ '/' := fun x hx => wordDotDash_not_slash (hclass x hx)
    have hs' : s = medStart ++ (run ++ '/' :: c :: tail) := by rw [hs, List.append_assoc]
    unfold qualifies
    have hpre : medStart.isPrefixOf s = true := by
      rw [List.isPrefixOf_iff_prefix, hs']
      exact List.prefix_append _ _
    rw [hpre]
    simp only [if_true]
    have hrest : s.drop medStart.length = run ++ '/' :: c :: tail := by
      rw [hs', List.drop_left]
    rw [hrest]
    have hsl : isWordDotDash '/' = false := by decide
    have htake : (run ++ '/' :: c :: tail).takeWhile isWordDotDash = run := by
      rw [takeWhile_append_all _ hclass]
      simp [List.takeWhile_cons, hsl]
    have hdrop : (run ++ '/' :: c :: tail).dropWhile isWordDotDash = '/' :: c :: tail := by
      rw [dropWhile_append_all _ hclass]
      simp [List.dropWhile_cons, hsl]
    rw [htake, hdrop]
    simp [hne, hc]

theorem clean_idem (s : List Char) : cleanUrl (cleanUrl s) = cleanUrl s := by
  unfold cleanUrl
  exact List.takeWhile_idem

/-- Canonicalizing a qualifying URL and its decomposition. -/
theorem cleanUrl_of_qualifies {run : List Char} {c : Char} {tail : List Char}
    (hclass : ∀ x ∈ run, isWordDotDash x = true) (hc : (c != '?') = true) :
    cleanUrl (medStart ++ run ++ '/' :: c :: tail)
      = medStart ++ run ++ '/' :: c :: cleanUrl tail := by
  unfold cleanUrl
  rw [List.append_assoc, takeWhile_append_all _ (by decide),
    takeWhile_append_all _ (fun x hx => wordDotDash_ne_qmark (hclass x hx)),
    List.takeWhile_cons, List.takeWhile_cons]
  simp [hc, List.append_assoc]

/-- A qualifying URL still qualifies after its query string is removed. -/
theorem qualifies_clean {u : List Char} (h : qualifies u = true) :
    qualifies (cleanUrl u) = true := by
  obtain ⟨run, c, tail, hs, hne, hclass, hc⟩ := qualifies_iff.mp h
  rw [hs, cleanUrl_of_qualifies hclass hc]
  exact qualifies_iff.mpr ⟨run, c, cleanUrl tail, rfl, hne, hclass, hc⟩

/-! ## Lemmas about `extract_urls_from_html` -/

theorem extractUrlsGo_eq_append (rest : List (List Char)) :
    ∀ acc : List (List Char),
      (∀ h ∈ rest, qualifies (pstrip h) = true) →
      (acc ++ rest.map (fun h => cleanUrl (pstrip h))).Nodup →
      extractUrlsGo rest acc = acc ++ rest.map (fun h => cleanUrl (pstrip h)) := by
  induction rest with
  | nil => intro acc _ _; simp [extractUrlsGo]
  | cons h t ih =>
    intro acc hq hnd
    have hqh : qualifies (pstrip h) = true := hq h (List.mem_cons_self h t)
    have hmem : cleanUrl (pstrip h) ∉ acc := by
      intro hin
      rw [List.map_cons] at hnd
      have := (List.nodup_append.mp hnd).2.2
      exact this hin (List.mem_cons_self _ _)
    simp only [extractUrlsGo, hqh, if_true, hmem, if_false]
    rw [ih (acc ++ [cleanUrl (pstrip h)])
      (fun x hx => hq x (List.mem_cons_of_mem h hx))
      (by simpa [List.append_assoc] using hnd)]
    simp [List.append_assoc]

theorem extractUrlsGo_nodup (rest : List (List Char)) :
    ∀ acc : List (List Char), acc.Nodup → (extractUrlsGo rest acc).Nodup := by
  induction rest with
  | nil => intro acc h; simpa [extractUrlsGo] using h
  | cons h t ih =>
    intro acc hacc
    by_cases hq : qualifies (pstrip h) = true
    · by_cases hm : cleanUrl (pstrip h) ∈ acc
      · simpa [extractUrlsGo, hq, hm] using ih acc hacc
      · have : (acc ++ [cleanUrl (pstrip h)]).Nodup := by
          refine List.Nodup.append hacc (by simp) ?_
          intro x hx hx'
          simp at hx'
          exact hm (hx' ▸ hx)
        simpa [extractUrlsGo, hq, hm] using ih _ this
    · simpa [extractUrlsGo, hq] using ih acc hacc

theorem extractUrlsGo_mem (rest : List (List Char)) :
    ∀ acc u, u ∈ extractUrlsGo rest acc →
      u ∈ acc ∨ ∃ h ∈ rest, u = cleanUrl (pstrip h) ∧ qualifies (pstrip h) = true := by
  induction rest with
  | nil => intro acc u hu; exact Or.inl (by simpa [extractUrlsGo] using hu)
  | cons h t ih =>
    intro acc u hu
    by_cases hq : qualifies (pstrip h) = true
    · by_cases hm : cleanUrl (pstrip h) ∈ acc
      · simp only [extractUrlsGo, hq, if_true, hm, if_true] at hu
        rcases ih acc u hu with h1 | ⟨x, hx, hx2⟩
        · exact Or.inl h1
        · exact Or.inr ⟨x, List.mem_cons_of_mem h hx, hx2⟩
      · simp only [extractUrlsGo, hq, if_true, hm, if_false] at hu
        rcases ih _ u hu with h1 | ⟨x, hx, hx2⟩
        · rcases List.mem_append.mp h1 with h2 | h2
          · exact Or.inl h2
          · have h3 : u = cleanUrl (pstrip h) := by simpa using h2
            exact Or.inr ⟨h, List.mem_cons_self h t, h3, hq⟩
        · exact Or.inr ⟨x, List.mem_cons_of_mem h hx, hx2⟩
    · simp only [extractUrlsGo, hq, if_false] at hu
      rcases ih acc u hu with h1 | ⟨x, hx, hx2⟩
      · exact Or.inl h1
      · exact Or.inr ⟨x, List.mem_cons_of_mem h hx, hx2⟩

/-- Every URL the extractor returns qualifies and is its own canonical form. -/
theorem extractUrls_mem_spec {hrefs : List (List Char)} {u : List Char}
    (hu : u ∈ extractUrlsFromHtml hrefs) :
    qualifies u = true ∧ cleanUrl u = u := by
  rcases extractUrlsGo_mem hrefs [] u hu with h1 | ⟨x, _, hx2, hx3⟩
  · simp at h1
  · subst hx2
    exact ⟨qualifies_clean hx3, clean_idem _⟩

theorem extractUrls_nodup (hrefs : List (List Char)) :
    (extractUrlsFromHtml hrefs).Nodup :=
  extractUrlsGo_nodup hrefs [] (by simp)

/-! ## Lemmas about `get_email_body` and the archive loop -/

/-- The URL list of `get_email_body` consists of qualifying, already
canonical URLs. -/
theorem getEmailBody_urls_spec {m : EmailMsg} {u : List Char}
    (hu : u ∈ (getEmailBody m).2) :
    qualifies u = true ∧ cleanUrl u = u := by
  cases hfind : m.parts.find? (fun p => p.contentType = "text/html".data) with
  | none => simp only [getEmailBody, hfind] at hu; simp at hu
  | some part =>
    simp only [getEmailBody, hfind] at hu
    cases hpay : part.payload with
    | none => simp only [hpay] at hu; simp at hu
    | some h =>
      simp only [hpay] at hu
      by_cases hraw : h.raw.isEmpty
      · rw [if_pos hraw] at hu; simp at hu
      · rw [if_neg hraw] at hu
        exact extractUrls_mem_spec hu

/-- The URL list of `get_email_body` has no duplicates. -/
theorem getEmailBody_urls_nodup (m : EmailMsg) : ((getEmailBody m).2).Nodup := by
  cases hfind : m.parts.find? (fun p => p.contentType = "text/html".data) with
  | none => simp [getEmailBody, hfind]
  | some part =>
    cases hpay : part.payload with
    | none => simp [getEmailBody, hfind, hpay]
    | some h =>
      by_cases hraw : h.raw.isEmpty
      · simp [getEmailBody, hfind, hpay, hraw]
      · simp only [getEmailBody, hfind, hpay, hraw, if_false]
        exact extractUrls_nodup h.anchors

/-- Characterization of the per-URL loop of `process_email` over a list of
qualifying canonical URLs: every URL is attempted (regardless of archive
failures, which are swallowed), and the successes are exactly the URLs the
archive call accepted, in order. -/
theorem archiveLoop_char (arch : ArchiveFn) (us : List (List Char))
    (hus : ∀ u ∈ us, qualifies u = true ∧ cleanUrl u = u) :
    (archiveLoop arch us).1 = us ∧
    (archiveLoop arch us).2
      = us.filterMap (fun u =>
          match arch u with
          | .ok a => some (u, a)
          | .error _ => none) := by
  induction us with
  | nil => simp [archiveLoop]
  | cons u t ih =>
    have hu := hus u (List.mem_cons_self u t)
    have iht := ih (fun x hx => hus x (List.mem_cons_of_mem u hx))
    cases harch : arch (cleanUrl u) with
    | ok a =>
      simp only [archiveLoop, hu.1, if_true, harch, List.filterMap_cons, hu.2]
      rw [hu.2] at harch
      simp [harch, iht.1, iht.2, hu.2]
    | error e =>
      simp only [archiveLoop, hu.1, if_true, harch, List.filterMap_cons, hu.2]
      rw [hu.2] at harch
      simp [harch, iht.1, iht.2, hu.2]

/-- When every archive call fails, the loop records no successes. -/
theorem archiveLoop_all_fail (arch : ArchiveFn) (us : List (List Char))
    (hus : ∀ u ∈ us, qualifies u = true ∧ cleanUrl u = u)
    (hfail : ∀ u ∈ us, isOkE (arch u) = false) :
    (archiveLoop arch us).2 = [] := by
  rw [(archiveLoop_char arch us hus).2]
  induction us with
  | nil => simp
  | cons u t ih =>
    have hu := hfail u (List.mem_cons_self u t)
    cases harch : arch u with
    | ok a => rw [harch] at hu; simp [isOkE] at hu
    | error e =>
      simp only [List.filterMap_cons, harch]
      exact ih (fun x hx => hus x (List.mem_cons_of_mem u hx))
        (fun x hx => hfail x (List.mem_cons_of_mem u hx))

/-- When some archive call succeeds, the loop records a success. -/
theorem archiveLoop_some_ok (arch : ArchiveFn) (us : List (List Char))
    (hus : ∀ u ∈ us, qualifies u = true ∧ cleanUrl u = u)
    {v : List Char} (hv : v ∈ us) (hok : isOkE (arch v) = true) :
    (archiveLoop arch us).2 ≠ [] := by
  rw [(archiveLoop_char arch us hus).2]
  cases harch : arch v with
  | error e => rw [harch] at hok; simp [isOkE] at hok
  | ok a =>
    intro hnil
    have : (v, a) ∈ us.filterMap (fun u =>
        match arch u with
        | .ok a => some (u, a)
        | .error _ => none) :=
      List.mem_filterMap.mpr ⟨v, hv, by simp [harch]⟩
    rw [hnil] at this
    simp at this

/-- In a nodup list of length at least two, every element has a distinct
companion. -/
theorem exists_other_mem {l : List (List Char)} (hnd : l.Nodup)
    (hlen : 2 ≤ l.length) {u : List Char} (hu : u ∈ l) :
    ∃ v ∈ l, v ≠ u := by
  match l, hlen with
  | a :: b :: t, _ =>
    have hab : a ≠ b := by
      have := List.nodup_cons.mp hnd
      exact fun he => this.1 (he ▸ List.mem_cons_self b t)
    by_cases hua : u = a
    · exact ⟨b, List.mem_cons_of_mem a (List.mem_cons_self b t), fun he => hab (hua ▸ he.symm)⟩
    · exact ⟨a, List.mem_cons_self a (b :: t), fun he => hua he.symm⟩

/-! ## Lemmas about `process_email` and `process_new_emails` -/

theorem processEmail_attempts (arch : ArchiveFn) (now : List Char) (msg : EmailMsg) :
    (processEmail arch now msg).attempts
      = (archiveLoop arch (getEmailBody msg).2).1 := by
  simp only [processEmail]
  split <;> rfl

theorem processEmail_error_case {arch : ArchiveFn} {now : List Char} {msg : EmailMsg}
    (h : (archiveLoop arch (getEmailBody msg).2).2 = []) :
    processEmail arch now msg
      = ⟨(archiveLoop arch (getEmailBody msg).2).1, [],
         [.notif (procErrNotif valErrMsg)], .error valErrMsg⟩ := by
  simp only [processEmail, h]
  rfl

theorem processEmail_ok_case {arch : ArchiveFn} {now : List Char} {msg : EmailMsg}
    (h : (archiveLoop arch (getEmailBody msg).2).2 ≠ []) :
    processEmail arch now msg
      = ⟨(archiveLoop arch (getEmailBody msg).2).1,
         (archiveLoop arch (getEmailBody msg).2).2,
         [.notif (buildMessage (archiveLoop arch (getEmailBody msg).2).2 now)],
         .ok ()⟩ := by
  simp only [processEmail]
  rw [if_neg (by simpa using h)]

/-- Every `process_email` call dispatches exactly one notification. -/
theorem processEmail_events_shape (arch : ArchiveFn) (now : List Char) (msg : EmailMsg) :
    ∃ t, (processEmail arch now msg).events = [Ev.notif t] := by
  simp only [processEmail]
  split
  · exact ⟨_, rfl⟩
  · exact ⟨_, rfl⟩

theorem pne_nil (arch : ArchiveFn) (now : List Char) (fetch : Nat → EmailMsg)
    (st : List Nat) : processNewEmails arch now fetch [] st = (st, []) := rfl

theorem pne_cons_mem {arch : ArchiveFn} {now : List Char} {fetch : Nat → EmailMsg}
    {mid : Nat} {rest st : List Nat} (h : mid ∈ st) :
    processNewEmails arch now fetch (mid :: rest) st
      = processNewEmails arch now fetch rest st := by
  simp [processNewEmails, h]

theorem pne_cons_ok {arch : ArchiveFn} {now : List Char} {fetch : Nat → EmailMsg}
    {mid : Nat} {rest st : List Nat} (h : mid ∉ st)
    (hok : (processEmail arch now (fetch mid)).outcome = .ok ()) :
    processNewEmails arch now fetch (mid :: rest) st
      = ((processNewEmails arch now fetch rest (st ++ [mid])).1,
         (processEmail arch now (fetch mid)).events
           ++ [.addProcessed mid, .markRead mid]
           ++ (processNewEmails arch now fetch rest (st ++ [mid])).2) := by
  simp [processNewEmails, h, hok]

theorem pne_cons_error {arch : ArchiveFn} {now : List Char} {fetch : Nat → EmailMsg}
    {mid : Nat} {rest st : List Nat} {e : List Char} (h : mid ∉ st)
    (herr : (processEmail arch now (fetch mid)).outcome = .error e) :
    processNewEmails arch now fetch (mid :: rest) st
      = ((processNewEmails arch now fetch rest st).1,
         (processEmail arch now (fetch mid)).events
           ++ [.notif (outerErrNotif mid e)]
           ++ (processNewEmails arch now fetch rest st).2) := by
  simp [processNewEmails, h, herr]

/-- Identifiers in the final processed set come from the initial set or the
batch. -/
theorem pne_state_mem (arch : ArchiveFn) (now : List Char) (fetch : Nat → EmailMsg)
    (ids : List Nat) : ∀ st x, x ∈ (processNewEmails arch now fetch ids st).1 →
      x ∈ st ∨ x ∈ ids := by
  induction ids with
  | nil => intro st x hx; exact Or.inl (by simpa [pne_nil] using hx)
  | cons mid rest ih =>
    intro st x hx
    by_cases hm : mid ∈ st
    · rw [pne_cons_mem hm] at hx
      rcases ih st x hx with h1 | h1
      · exact Or.inl h1
      · exact Or.inr (List.mem_cons_of_mem mid h1)
    · cases hout : (processEmail arch now (fetch mid)).outcome with
      | ok u =>
        cases u
        rw [pne_cons_ok hm hout] at hx
        rcases ih (st ++ [mid]) x hx with h1 | h1
        · rcases List.mem_append.mp h1 with h2 | h2
          · exact Or.inl h2
          · simp at h2
            exact Or.inr (h2 ▸ List.mem_cons_self mid rest)
        · exact Or.inr (List.mem_cons_of_mem mid h1)
      | error e =>
        rw [pne_cons_error hm hout] at hx
        rcases ih st x hx with h1 | h1
        · exact Or.inl h1
        · exact Or.inr (List.mem_cons_of_mem mid h1)

/-- A read flag is only ever set for an identifier of the current batch. -/
theorem pne_markRead_mem (arch : ArchiveFn) (now : List Char) (fetch : Nat → EmailMsg)
    (ids : List Nat) : ∀ st j, Ev.markRead j ∈ (processNewEmails arch now fetch ids st).2 →
      j ∈ ids := by
  induction ids with
  | nil => intro st j hj; simp [pne_nil] at hj
  | cons mid rest ih =>
    intro st j hj
    by_cases hm : mid ∈ st
    · rw [pne_cons_mem hm] at hj
      exact List.mem_cons_of_mem mid (ih st j hj)
    · obtain ⟨t, ht⟩ := processEmail_events_shape arch now (fetch mid)
      cases hout : (processEmail arch now (fetch mid)).outcome with
      | ok u =>
        cases u
        rw [pne_cons_ok hm hout, ht] at hj
        simp at hj
        rcases hj with h1 | h1
        · exact h1 ▸ List.mem_cons_self mid rest
        · exact List.mem_cons_of_mem mid (ih _ j h1)
      | error e =>
        rw [pne_cons_error hm hout, ht] at hj
        simp at hj
        exact List.mem_cons_of_mem mid (ih _ j hj)

/-! ## Lemmas about the highlight search -/

theorem hlTryK_isSome {tail : List Char} {k : Nat} (hk1 : 1 ≤ k)
    (hwork : hlMarker.isPrefixOf ((tail.drop k).dropWhile isPySpace) = true) :
    ∀ n, k ≤ n → (hlTryK tail n).isSome = true := by
  intro n
  induction n with
  | zero => intro hn; omega
  | succ m ih =>
    intro hn
    by_cases htest : hlMarker.isPrefixOf ((tail.drop (m + 1)).dropWhile isPySpace) = true
    · simp [hlTryK, htest]
    · have hk : k ≤ m := by
        rcases Nat.lt_or_ge k (m + 1) with h1 | h1
        · omega
        · have : k = m + 1 := by omega
          exact absurd (this ▸ hwork) htest
      simp only [hlTryK, if_neg htest]
      exact ih hk

theorem dropWhile_ws_marker (ws post : List Char)
    (hws : ∀ c ∈ ws, isPySpace c = true) :
    (ws ++ hlMarker ++ post).dropWhile isPySpace = hlMarker ++ post := by
  rw [List.append_assoc, dropWhile_append_all _ hws]
  have h1 : hlMarker ++ post = 'T' :: ("oday's highlights".data ++ post) := by
    simp [hlMarker]
  rw [h1, List.dropWhile_cons, if_neg (by decide)]

/-- The anchored highlight match succeeds on a string of the decomposed
shape: URL (prefix, author run, slash, slug) then whitespace then marker. -/
theorem hlTryAt_isSome {run slug ws post : List Char}
    (hrun : run ≠ []) (hrunc : ∀ x ∈ run, isWordDotDash x = true)
    (hslug : slug ≠ []) (hslugc : ∀ x ∈ slug, isUrlChar x = true)
    (hws : ∀ c ∈ ws, isPySpace c = true) :
    (hlTryAt (medStart ++ run ++ '/' :: (slug ++ ws ++ hlMarker ++ post))).isSome
      = true := by
  have hsl : isWordDotDash '/' = false := by decide
  set s := medStart ++ run ++ '/' :: (slug ++ ws ++ hlMarker ++ post) with hs
  have hs' : s = medStart ++ (run ++ '/' :: (slug ++ ws ++ hlMarker ++ post)) := by
    rw [hs, List.append_assoc]
  have hpre : medStart.isPrefixOf s = true := by
    rw [List.isPrefixOf_iff_prefix, hs']
    exact List.prefix_append _ _
  have hrest : s.drop medStart.length = run ++ '/' :: (slug ++ ws ++ hlMarker ++ post) := by
    rw [hs', List.drop_left]
  have htake : (run ++ '/' :: (slug ++ ws ++ hlMarker ++ post)).takeWhile isWordDotDash
      = run := by
    rw [takeWhile_append_all _ hrunc]
    simp [List.takeWhile_cons, hsl]
  have hdrop : (run ++ '/' :: (slug ++ ws ++ hlMarker ++ post)).dropWhile isWordDotDash
      = '/' :: (slug ++ ws ++ hlMarker ++ post) := by
    rw [dropWhile_append_all _ hrunc]
    simp [List.dropWhile_cons, hsl]
  have hlen : slug.length ≤ ((slug ++ ws ++ hlMarker ++ post).takeWhile isUrlChar).length := by
    have : (slug ++ (ws ++ hlMarker ++ post)).takeWhile isUrlChar
        = slug ++ (ws ++ hlMarker ++ post).takeWhile isUrlChar :=
      takeWhile_append_all _ hslugc
    rw [List.append_assoc, List.append_assoc, ← List.append_assoc ws, this]
    simp
  have hdropslug : (slug ++ ws ++ hlMarker ++ post).drop slug.length
      = ws ++ hlMarker ++ post := by
    rw [List.append_assoc, List.append_assoc, List.drop_left, ← List.append_assoc]
  have hwork : hlMarker.isPrefixOf
      (((slug ++ ws ++ hlMarker ++ post).drop slug.length).dropWhile isPySpace) = true := by
    rw [hdropslug, dropWhile_ws_marker ws post hws, List.isPrefixOf_iff_prefix]
    exact List.prefix_append _ _
  have hk1 : 1 ≤ slug.length := by
    cases slug with
    | nil => exact absurd rfl hslug
    | cons a t => simp
  have hsome := hlTryK_isSome hk1 hwork _ hlen
  unfold hlTryAt
  simp only [hpre, if_true, hrest, htake, hdrop]
  rw [if_neg (by simpa using hrun)]
  simp only [beq_self_eq_true, if_true]
  cases htk : hlTryK (slug ++ ws ++ hlMarker ++ post)
      ((slug ++ ws ++ hlMarker ++ post).takeWhile isUrlChar).length with
  | none => rw [htk] at hsome; simp at hsome
  | some k => simp

theorem findHighlight_isSome_append (t : List Char)
    (ht : (hlTryAt t).isSome = true) (htne : t ≠ []) :
    ∀ pre, (findHighlight (pre ++ t)).isSome = true := by
  intro pre
  induction pre with
  | nil =>
    cases t with
    | nil => exact absurd rfl htne
    | cons a u =>
      simp only [List.nil_append, findHighlight]
      cases hat : hlTryAt (a :: u) with
      | some g => simp
      | none => rw [hat] at ht; simp at ht
  | cons x pre ih =>
    simp only [List.cons_append, findHighlight]
    cases hat : hlTryAt (x :: (pre ++ t)) with
    | some g => simp
    | none => exact ih

/-- Whatever match the search returns starts with the URL prefix. -/
theorem hlTryAt_shape {s g : List Char} (h : hlTryAt s = some g) :
    ∃ x, g = medStart ++ x := by
  unfold hlTryAt at h
  split at h
  · split at h
    · exact absurd h (by simp)
    · split at h
      next a tail heq =>
        split at h
        · split at h
          next k hk =>
            injection h with h1
            refine ⟨List.takeWhile isWordDotDash (List.drop medStart.length s)
              ++ a :: List.take k tail, ?_⟩
            rw [← h1, List.append_assoc]
          next => exact absurd h (by simp)
        · exact absurd h (by simp)
      next => exact absurd h (by simp)
  · exact absurd h (by simp)

theorem findHighlight_shape {s g : List Char} (h : findHighlight s = some g) :
    ∃ x, g = medStart ++ x := by
  induction s with
  | nil => simp [findHighlight] at h
  | cons a u ih =>
    simp only [findHighlight] at h
    cases hat : hlTryAt (a :: u) with
    | some g2 =>
      rw [hat] at h
      injection h with h1
      exact h1 ▸ hlTryAt_shape hat
    | none =>
      rw [hat] at h
      exact ih h

/-- The canonical form of a found highlight is nonempty. -/
theorem cleanUrl_medStart_ne_nil (x : List Char) :
    cleanUrl (medStart ++ x) ≠ [] := by
  intro h
  unfold cleanUrl at h
  rw [show medStart ++ x = 'h' :: ("ttps://medium.com/@".data ++ x) by simp [medStart],
    List.takeWhile_cons] at h
  simp at h

/-- The skip test of the article loop keeps the highlight out of the
article list. -/
theorem articleUrlsGo_not_mem (h : List Char) (urls : List (List Char)) :
    ∀ acc, h ∉ acc → h ∉ articleUrlsGo (some h) urls acc := by
  induction urls with
  | nil => intro acc hacc; simpa [articleUrlsGo] using hacc
  | cons url rest ih =>
    intro acc hacc
    by_cases he : (some h : Option (List Char)) = some url
    · simpa [articleUrlsGo, he] using ih acc hacc
    · by_cases hq : qualifies url = true
      · by_cases hm : url ∈ acc
        · simpa [articleUrlsGo, he, hq, hm] using ih acc hacc
        · have hne : h ∉ acc ++ [url] := by
            intro hin
            rcases List.mem_append.mp hin with h1 | h1
            · exact hacc h1
            · simp at h1
              exact he (by rw [h1])
          simpa [articleUrlsGo, he, hq, hm] using ih _ hne
      · simpa [articleUrlsGo, he, hq] using ih acc hacc

/-! ## Lemmas about the success-notification text -/

theorem infix_joinNl {p : List Char} {ps : List (List Char)} (hp : p ∈ ps) :
    p <:+: joinNl ps := by
  induction ps with
  | nil => simp at hp
  | cons q ps ih =>
    cases ps with
    | nil =>
      simp at hp
      exact hp ▸ List.infix_rfl
    | cons q2 t =>
      rcases List.mem_cons.mp hp with h1 | h1
      · exact h1 ▸ (List.prefix_append q ('\n' :: joinNl (q2 :: t))).isInfix
      · have h2 : joinNl (q2 :: t) <:+ q ++ '\n' :: joinNl (q2 :: t) :=
          ((List.suffix_cons '\n' (joinNl (q2 :: t))).trans
            (List.suffix_append q ('\n' :: joinNl (q2 :: t))))
        exact (ih h1).trans h2.isInfix

theorem mem_numberedLines {oa : List Char × List Char}
    {proc : List (List Char × List Char)} (h : oa ∈ proc) :
    ∀ j, ∃ i, articleLine i oa ∈ numberedLines j proc := by
  induction proc with
  | nil => simp at h
  | cons b t ih =>
    intro j
    rcases List.mem_cons.mp h with h1 | h1
    · exact ⟨j, h1 ▸ List.mem_cons_self _ _⟩
    · obtain ⟨i, hi⟩ := ih h1 (j + 1)
      exact ⟨i, List.mem_cons_of_mem _ hi⟩

theorem infix_articleLine (i : Nat) (oa : List Char × List Char) :
    oa.1 <:+: articleLine i oa ∧ oa.2 <:+: articleLine i oa := by
  constructor
  · refine ⟨'\n' :: (natStr i ++ ". Original: ".data),
      "\n   Archived: ".data ++ oa.2, ?_⟩
    simp [articleLine]
  · refine ⟨'\n' :: (natStr i ++ ". Original: ".data ++ oa.1 ++ "\n   Archived: ".data),
      [], ?_⟩
    simp [articleLine]

/-- Both components of every success pair occur in the notification text. -/
theorem infix_buildMessage {oa : List Char × List Char}
    {proc : List (List Char × List Char)} (h : oa ∈ proc) (now : List Char) :
    oa.1 <:+: buildMessage proc now ∧ oa.2 <:+: buildMessage proc now := by
  obtain ⟨i, hi⟩ := mem_numberedLines h 1
  have hline : articleLine i oa
      ∈ ["📚 New Medium Articles Archived!\n".data,
         "📥 Archived Articles:".data]
        ++ numberedLines 1 proc
        ++ ["\n\n⏰ Processed at: ".data ++ now,
            "\nUse /help to see available commands".data] := by
    refine List.mem_append.mpr (Or.inl (List.mem_append.mpr (Or.inr hi)))
  have hj := infix_joinNl hline
  exact ⟨(infix_articleLine i oa).1.trans hj, (infix_articleLine i oa).2.trans hj⟩

/-! ## Characterization of the main loop -/

/-- The events of one loop iteration: status message, poll-interval sleep,
check; and after a failing check, the error notification and the fixed
60-second backoff sleep. -/
def iterBlock (env : RunEnv) (interval k : Nat) : List REv :=
  [REv.statusMsg, REv.sleepSec interval, REv.check k]
    ++ (match env.checkRes k with
        | .ok _ => []
        | .error e => [REv.errNotif e, REv.sleepSec 60])

/-- The events of `n` consecutive loop iterations starting at check `k`. -/
def iterBlocks (env : RunEnv) (interval : Nat) : Nat → Nat → List REv
  | _, 0 => []
  | k, n + 1 => iterBlock env interval k ++ iterBlocks env interval (k + 1) n

theorem runLoop_eq (env : RunEnv) (interval : Nat) :
    ∀ fuel k, runLoop env interval k fuel = (iterBlocks env interval k fuel, .fuelOut) := by
  intro fuel
  induction fuel with
  | zero => intro k; rfl
  | succ n ih =>
    intro k
    cases hc : env.checkRes k with
    | ok u =>
      simp [runLoop, hc, ih (k + 1), iterBlocks, iterBlock]
    | error e =>
      simp [runLoop, hc, ih (k + 1), iterBlocks, iterBlock]

/-! ## Claim theorems -/

/-- Concrete network environment used to evaluate the archive routine. -/
def net0 : Net :=
  { landing := ⟨true, 200, "https://archive.ph/".data, some "tok123".data, false⟩,
    submit := fun _ => ⟨true, 200, "https://archive.ph/AbCd1".data, none, false⟩,
    fetchPage := fun _ => ⟨true, 200, "https://archive.ph/AbCd1".data, none, true⟩ }

/-- C1: the spec says the archive client's public operation returns the
archived-page URL as plain text, but the only archive routine the code
defines, `archive_and_save_content`, returns the pair of local file paths
(markdown path, HTML path); the archived URL (`https://archive.ph/AbCd1`
here) is not the returned value.  The name `get_archived_url` that the
processor imports is defined nowhere, so the processor module cannot even
be imported. -/
theorem c1_archive_returns_file_paths_not_url :
    archiveAndSaveContent net0 "https://medium.com/@alice/my-story".data
      = .ok ("archived_content/my_story.md".data,
             "archived_content/html/my_story.html".data)
    ∧ "archived_content/my_story.md".data ≠ "https://archive.ph/AbCd1".data
    ∧ "archived_content/html/my_story.html".data ≠ "https://archive.ph/AbCd1".data :=
  ⟨rfl, by decide, by decide⟩

/-- A message carrying only a nonempty `text/plain` part. -/
def msgPlainOnly : EmailMsg :=
  ⟨[⟨"text/plain".data, some ⟨"hello".data, [], "hello".data⟩⟩]⟩

/-- C2 counterexample: on a message whose only body part is a nonempty
`text/plain` part, `get_email_body` returns an empty body and no URLs — it
neither falls back to the plain-text part (the claimed body `hello` is not
returned) nor fails with a `NoBodyFound` error. -/
theorem c2_plaintext_fallback_counterexample :
    getEmailBody msgPlainOnly = ([], []) ∧ "hello".data ≠ ([] : List Char) :=
  ⟨rfl, by decide⟩

/-- C2 (amended): the body-location step only ever uses the first
`text/html` part; for every message without an HTML part — regardless of
any plain-text parts — it returns an empty body and an empty URL list,
raising no error. -/
theorem c2_html_only_no_fallback (m : EmailMsg)
    (h : ∀ p ∈ m.parts, p.contentType ≠ "text/html".data) :
    getEmailBody m = ([], []) := by
  have hfind : m.parts.find? (fun p => p.contentType = "text/html".data) = none :=
    List.find?_eq_none.mpr (fun x hx => by simpa using h x hx)
  simp [getEmailBody, hfind]

theorem c2_html_only_no_fallback_witness :
    getEmailBody msgPlainOnly = ([], []) :=
  c2_html_only_no_fallback msgPlainOnly (by decide)

/-- C3: over anchors that all qualify and whose canonical forms are
pairwise distinct, the extractor returns exactly those canonical forms
(query strings removed) in first-seen order; and two anchors differing
only by query string (equal canonical forms) yield exactly one canonical
URL. -/
theorem c3_extract_canonical_dedupe_order (hrefs : List (List Char))
    (u1 u2 : List Char)
    (hq : ∀ h ∈ hrefs, qualifies (pstrip h) = true)
    (hnd : (hrefs.map (fun h => cleanUrl (pstrip h))).Nodup)
    (h1 : qualifies (pstrip u1) = true) (h2 : qualifies (pstrip u2) = true)
    (he : cleanUrl (pstrip u1) = cleanUrl (pstrip u2)) :
    extractUrlsFromHtml hrefs = hrefs.map (fun h => cleanUrl (pstrip h))
    ∧ extractUrlsFromHtml [u1, u2] = [cleanUrl (pstrip u1)] := by
  constructor
  · exact extractUrlsGo_eq_append hrefs [] hq (by simpa using hnd)
  · simp [extractUrlsFromHtml, extractUrlsGo, h1, h2, he]

theorem c3_extract_canonical_dedupe_order_witness :
    extractUrlsFromHtml
        ["https://medium.com/@a/one?src=m".data, "https://medium.com/@b/two".data]
      = (["https://medium.com/@a/one?src=m".data, "https://medium.com/@b/two".data].map
          (fun h => cleanUrl (pstrip h)))
    ∧ extractUrlsFromHtml
        ["https://medium.com/@a/one?src=m".data, "https://medium.com/@a/one?src=n".data]
      = [cleanUrl (pstrip "https://medium.com/@a/one?src=m".data)] :=
  c3_extract_canonical_dedupe_order
    ["https://medium.com/@a/one?src=m".data, "https://medium.com/@b/two".data]
    "https://medium.com/@a/one?src=m".data "https://medium.com/@a/one?src=n".data
    (by decide) (by decide) (by decide) (by decide) (by decide)

/-- The canonical form of the highlight URL the search finds in a body. -/
def hlValue (body : List Char) : List Char := cleanUrl ((findHighlight body).getD [])

/-- C4: for every body text in which a qualifying URL (prefix, author run,
slash, nonempty slug of allowed characters) immediately precedes the marker
phrase, separated only by whitespace, `extract_article_urls` succeeds with
exactly one highlight (`highlights_url` is `some` of the found canonical
URL) and that URL is excluded from the `medium_urls` article list, whatever
the extracted URL list is. -/
theorem c4_highlight_tagged_and_excluded (pre run slug ws post : List Char)
    (allUrls : List (List Char))
    (hrun : run ≠ []) (hrunc : ∀ x ∈ run, isWordDotDash x = true)
    (hslug : slug ≠ []) (hslugc : ∀ x ∈ slug, isUrlChar x = true)
    (hws : ∀ c ∈ ws, isPySpace c = true) :
    (findHighlight (pre ++ (medStart ++ run ++ '/' :: (slug ++ ws ++ hlMarker ++ post)))).isSome
        = true
    ∧ extractArticleUrls (pre ++ (medStart ++ run ++ '/' :: (slug ++ ws ++ hlMarker ++ post)))
        allUrls
      = .ok ⟨some (hlValue (pre ++ (medStart ++ run ++ '/' :: (slug ++ ws ++ hlMarker ++ post)))),
             articleUrlsGo
               (some (hlValue (pre ++ (medStart ++ run ++ '/' :: (slug ++ ws ++ hlMarker ++ post)))))
               allUrls [], []⟩
    ∧ hlValue (pre ++ (medStart ++ run ++ '/' :: (slug ++ ws ++ hlMarker ++ post)))
        ∉ articleUrlsGo
            (some (hlValue (pre ++ (medStart ++ run ++ '/' :: (slug ++ ws ++ hlMarker ++ post)))))
            allUrls [] := by
  set body := pre ++ (medStart ++ run ++ '/' :: (slug ++ ws ++ hlMarker ++ post)) with hbody
  have hts : (hlTryAt (medStart ++ run ++ '/' :: (slug ++ ws ++ hlMarker ++ post))).isSome
      = true := hlTryAt_isSome hrun hrunc hslug hslugc hws
  have htne : medStart ++ run ++ '/' :: (slug ++ ws ++ hlMarker ++ post) ≠ [] := by
    simp [medStart]
  have hfs : (findHighlight body).isSome = true :=
    findHighlight_isSome_append _ hts htne pre
  obtain ⟨g, hg⟩ := Option.isSome_iff_exists.mp hfs
  obtain ⟨x, hx⟩ := findHighlight_shape hg
  have hgd : (findHighlight body).getD [] = g := by rw [hg]; rfl
  have hval : hlValue body = cleanUrl g := by rw [hlValue, hgd]
  have hne : cleanUrl g ≠ [] := hx ▸ cleanUrl_medStart_ne_nil x
  refine ⟨hfs, ?_, ?_⟩
  · unfold extractArticleUrls
    rw [hg]
    simp only [Option.map_some']
    have h1 : ((some (cleanUrl g)).getD []).isEmpty = false := by simpa using hne
    rw [h1, Bool.false_and]
    simp only [Bool.false_eq_true, if_false]
    rw [hval]
  · rw [hval]
    exact articleUrlsGo_not_mem (cleanUrl g) allUrls [] (by simp)

theorem c4_highlight_tagged_and_excluded_witness :
    (findHighlight ("Check ".data
        ++ (medStart ++ "alice".data ++ '/' :: ("story".data ++ " ".data ++ hlMarker ++ " more".data)))).isSome
        = true
    ∧ extractArticleUrls ("Check ".data
        ++ (medStart ++ "alice".data ++ '/' :: ("story".data ++ " ".data ++ hlMarker ++ " more".data)))
        ["https://medium.com/@alice/story".data, "https://medium.com/@bob/other".data]
      = .ok ⟨some (hlValue ("Check ".data
            ++ (medStart ++ "alice".data ++ '/' :: ("story".data ++ " ".data ++ hlMarker ++ " more".data)))),
             articleUrlsGo
               (some (hlValue ("Check ".data
                 ++ (medStart ++ "alice".data ++ '/' :: ("story".data ++ " ".data ++ hlMarker ++ " more".data)))))
               ["https://medium.com/@alice/story".data, "https://medium.com/@bob/other".data] [], []⟩
    ∧ hlValue ("Check ".data
        ++ (medStart ++ "alice".data ++ '/' :: ("story".data ++ " ".data ++ hlMarker ++ " more".data)))
        ∉ articleUrlsGo
            (some (hlValue ("Check ".data
              ++ (medStart ++ "alice".data ++ '/' :: ("story".data ++ " ".data ++ hlMarker ++ " more".data)))))
            ["https://medium.com/@alice/story".data, "https://medium.com/@bob/other".data] [] :=
  c4_highlight_tagged_and_excluded "Check ".data "alice".data "story".data " ".data
    " more".data ["https://medium.com/@alice/story".data, "https://medium.com/@bob/other".data]
    (by decide) (by decide) (by decide) (by decide) (by decide)

/-- C5: when the archive call fails for one URL of a message carrying
several extracted URLs and succeeds for the others, every URL is still
passed to the archive call, the failure does not abort the batch, and the
message is still added to the processed set and marked read (notification
first, then the flag updates). -/
theorem c5_per_url_failure_isolated (arch : ArchiveFn) (now : List Char)
    (fetch : Nat → EmailMsg) (mid : Nat) (st : List Nat) (u : List Char)
    (hst : mid ∉ st)
    (hu : u ∈ (getEmailBody (fetch mid)).2)
    (hfail : isOkE (arch u) = false)
    (hrest : ∀ v ∈ (getEmailBody (fetch mid)).2, v ≠ u → isOkE (arch v) = true)
    (hlen : 2 ≤ ((getEmailBody (fetch mid)).2).length) :
    (processEmail arch now (fetch mid)).attempts = (getEmailBody (fetch mid)).2
    ∧ processNewEmails arch now fetch [mid] st
      = (st ++ [mid],
         (processEmail arch now (fetch mid)).events
           ++ [.addProcessed mid, .markRead mid]) := by
  have hus : ∀ v ∈ (getEmailBody (fetch mid)).2, qualifies v = true ∧ cleanUrl v = v :=
    fun v hv => getEmailBody_urls_spec hv
  obtain ⟨v, hv, hvne⟩ := exists_other_mem (getEmailBody_urls_nodup (fetch mid)) hlen hu
  have hproc : (archiveLoop arch (getEmailBody (fetch mid)).2).2 ≠ [] :=
    archiveLoop_some_ok arch _ hus hv (hrest v hv hvne)
  have hok : (processEmail arch now (fetch mid)).outcome = .ok () := by
    rw [processEmail_ok_case hproc]
  refine ⟨?_, ?_⟩
  · rw [processEmail_attempts]
    exact (archiveLoop_char arch _ hus).1
  · rw [pne_cons_ok hst hok, pne_nil]
    simp

/-- The timestamp used in concrete evaluations. -/
def now0 : List Char := "2025-01-01 00:00:00".data

/-- A message whose HTML part yields three article URLs. -/
def msg3 : EmailMsg :=
  ⟨[⟨"text/html".data,
     some ⟨"<html>body</html>".data,
           ["https://medium.com/@a/one".data, "https://medium.com/@a/two".data,
            "https://medium.com/@b/three".data],
           "body".data⟩⟩]⟩

/-- An archive function failing on exactly one of the three URLs. -/
def archOneFail : ArchiveFn := fun u =>
  if u = "https://medium.com/@a/two".data then .error "SubmitFailed".data
  else .ok "https://archive.ph/ok1".data

theorem c5_per_url_failure_isolated_witness :
    (processEmail archOneFail now0 ((fun _ => msg3) 7)).attempts
      = (getEmailBody ((fun _ => msg3) 7)).2
    ∧ processNewEmails archOneFail now0 (fun _ => msg3) [7] []
      = ([] ++ [7],
         (processEmail archOneFail now0 ((fun _ => msg3) 7)).events
           ++ [.addProcessed 7, .markRead 7]) :=
  c5_per_url_failure_isolated archOneFail now0 (fun _ => msg3) 7 []
    "https://medium.com/@a/two".data
    (by decide) (by decide) (by decide) (by decide) (by decide)

/-- C6 (amended): when extraction yields no URLs for a message, the failure
is isolated — the error is surfaced through two Notifier sends (the
processor's own and the outer handler's) and the remaining messages of the
batch are handled exactly as they would be without it — but the message is
NOT added to the processed set and NOT marked read, so it is re-processed
on later cycles while it stays unread. -/
theorem c6_extraction_failure_not_marked_processed (arch : ArchiveFn) (now : List Char)
    (fetch : Nat → EmailMsg) (mid : Nat) (rest st : List Nat)
    (hst : mid ∉ st) (hmr : mid ∉ rest)
    (hnoq : (getEmailBody (fetch mid)).2 = []) :
    processNewEmails arch now fetch (mid :: rest) st
      = ((processNewEmails arch now fetch rest st).1,
         [.notif (procErrNotif valErrMsg), .notif (outerErrNotif mid valErrMsg)]
           ++ (processNewEmails arch now fetch rest st).2)
    ∧ mid ∉ (processNewEmails arch now fetch (mid :: rest) st).1
    ∧ Ev.markRead mid ∉ (processNewEmails arch now fetch (mid :: rest) st).2 := by
  have hloop : (archiveLoop arch (getEmailBody (fetch mid)).2).2 = [] := by
    rw [hnoq]; rfl
  have hpe := @processEmail_error_case arch now (fetch mid) hloop
  have herr : (processEmail arch now (fetch mid)).outcome = .error valErrMsg := by
    rw [hpe]
  have hev : (processEmail arch now (fetch mid)).events
      = [.notif (procErrNotif valErrMsg)] := by rw [hpe]
  have heq : processNewEmails arch now fetch (mid :: rest) st
      = ((processNewEmails arch now fetch rest st).1,
         [.notif (procErrNotif valErrMsg), .notif (outerErrNotif mid valErrMsg)]
           ++ (processNewEmails arch now fetch rest st).2) := by
    rw [pne_cons_error hst herr, hev]
    simp
  refine ⟨heq, ?_, ?_⟩
  · rw [heq]
    intro hin
    rcases pne_state_mem arch now fetch rest st mid hin with h1 | h1
    · exact hst h1
    · exact hmr h1
  · rw [heq]
    intro hin
    simp only [List.mem_append, List.mem_cons, List.mem_singleton] at hin
    rcases hin with (h1 | h1) | h1
    · exact absurd h1 (by simp)
    · exact absurd h1 (by simp)
    · exact hmr (pne_markRead_mem arch now fetch rest st mid h1)

/-- A message whose HTML part yields no article URLs. -/
def msgNoUrls : EmailMsg :=
  ⟨[⟨"text/html".data, some ⟨"<p>hi</p>".data, [], "hi".data⟩⟩]⟩

theorem c6_extraction_failure_not_marked_processed_witness :
    processNewEmails archOneFail now0
        (fun k => if k = 3 then msgNoUrls else msg3) (3 :: [9]) []
      = ((processNewEmails archOneFail now0
            (fun k => if k = 3 then msgNoUrls else msg3) [9] []).1,
         [.notif (procErrNotif valErrMsg), .notif (outerErrNotif 3 valErrMsg)]
           ++ (processNewEmails archOneFail now0
                 (fun k => if k = 3 then msgNoUrls else msg3) [9] []).2)
    ∧ 3 ∉ (processNewEmails archOneFail now0
            (fun k => if k = 3 then msgNoUrls else msg3) (3 :: [9]) []).1
    ∧ Ev.markRead 3 ∉ (processNewEmails archOneFail now0
            (fun k => if k = 3 then msgNoUrls else msg3) (3 :: [9]) []).2 :=
  c6_extraction_failure_not_marked_processed archOneFail now0
    (fun k => if k = 3 then msgNoUrls else msg3) 3 [9] []
    (by decide) (by decide) (by decide)

/-- C7 (amended): once all URLs of a message have been attempted and at
least one succeeded, the orchestrator dispatches exactly one consolidated
notification, and only after it the identifier is added to the processed
set and the message is marked read; the notification text contains the
original and archived URL of every success — but it is built from the
success list only, failed URLs are merely logged and do not appear in it. -/
theorem c7_one_notification_then_flags (arch : ArchiveFn) (now : List Char)
    (fetch : Nat → EmailMsg) (mid : Nat) (st : List Nat) (o a : List Char)
    (hst : mid ∉ st)
    (hoa : (o, a) ∈ (archiveLoop arch (getEmailBody (fetch mid)).2).2) :
    processNewEmails arch now fetch [mid] st
      = (st ++ [mid],
         [.notif (buildMessage (archiveLoop arch (getEmailBody (fetch mid)).2).2 now),
          .addProcessed mid, .markRead mid])
    ∧ o <:+: buildMessage (archiveLoop arch (getEmailBody (fetch mid)).2).2 now
    ∧ a <:+: buildMessage (archiveLoop arch (getEmailBody (fetch mid)).2).2 now := by
  have hproc : (archiveLoop arch (getEmailBody (fetch mid)).2).2 ≠ [] :=
    List.ne_nil_of_mem hoa
  have hpe := @processEmail_ok_case arch now (fetch mid) hproc
  have hok : (processEmail arch now (fetch mid)).outcome = .ok () := by rw [hpe]
  have hev : (processEmail arch now (fetch mid)).events
      = [.notif (buildMessage (archiveLoop arch (getEmailBody (fetch mid)).2).2 now)] := by
    rw [hpe]
  have hinf := infix_buildMessage hoa now
  refine ⟨?_, hinf.1, hinf.2⟩
  rw [pne_cons_ok hst hok, pne_nil, hev]
  simp

/-- A message whose HTML part yields one article URL. -/
def msg1 : EmailMsg :=
  ⟨[⟨"text/html".data,
     some ⟨"<html>x</html>".data, ["https://medium.com/@a/one".data], "x".data⟩⟩]⟩

/-- An archive function that always succeeds. -/
def archAllOk : ArchiveFn := fun _ => .ok "https://archive.ph/ok1".data

theorem c7_one_notification_then_flags_witness :
    processNewEmails archAllOk now0 (fun _ => msg1) [4] []
      = ([] ++ [4],
         [.notif (buildMessage (archiveLoop archAllOk (getEmailBody ((fun _ => msg1) 4)).2).2 now0),
          .addProcessed 4, .markRead 4])
    ∧ "https://medium.com/@a/one".data
        <:+: buildMessage (archiveLoop archAllOk (getEmailBody ((fun _ => msg1) 4)).2).2 now0
    ∧ "https://archive.ph/ok1".data
        <:+: buildMessage (archiveLoop archAllOk (getEmailBody ((fun _ => msg1) 4)).2).2 now0 :=
  c7_one_notification_then_flags archAllOk now0 (fun _ => msg1) 4 []
    "https://medium.com/@a/one".data "https://archive.ph/ok1".data
    (by decide) (by decide)

/-- A message yielding one URL that archives and one whose archive call
fails. -/
def msgC7 : EmailMsg :=
  ⟨[⟨"text/html".data,
     some ⟨"<html>y</html>".data,
           ["https://medium.com/@ok/good".data, "https://medium.com/@bad/fail".data],
           "y".data⟩⟩]⟩

/-- An archive function failing on the second URL of `msgC7`. -/
def archC7 : ArchiveFn := fun u =>
  if u = "https://medium.com/@bad/fail".data then .error "FetchFailed".data
  else .ok "https://archive.ph/ok1".data

set_option maxRecDepth 4096 in
/-- C7 counterexample: with one success and one failure in the same
message, exactly one notification is sent and its text is built from the
success pair alone — the failed URL appears nowhere in it, so the
notification does not contain the failure list the claim describes. -/
theorem c7_failure_list_missing_counterexample :
    processNewEmails archC7 now0 (fun _ => msgC7) [0] []
      = ([0],
         [.notif (buildMessage
            [("https://medium.com/@ok/good".data, "https://archive.ph/ok1".data)] now0),
          .addProcessed 0, .markRead 0])
    ∧ ¬ ("https://medium.com/@bad/fail".data
          <:+: buildMessage
            [("https://medium.com/@ok/good".data, "https://archive.ph/ok1".data)] now0) :=
  ⟨rfl, by decide⟩

/-- C8: an identifier that entered the processed set is skipped by any
later invocation of the batch handler: after a successful first
invocation, the identifier is in the set and the second invocation
changes nothing and emits no events. -/
theorem c8_second_invocation_skips (arch : ArchiveFn) (now : List Char)
    (fetch : Nat → EmailMsg) (mid : Nat) (st : List Nat)
    (hst : mid ∉ st)
    (hok : (processEmail arch now (fetch mid)).outcome = .ok ()) :
    mid ∈ (processNewEmails arch now fetch [mid] st).1
    ∧ processNewEmails arch now fetch [mid] ((processNewEmails arch now fetch [mid] st).1)
      = ((processNewEmails arch now fetch [mid] st).1, []) := by
  have heq := @pne_cons_ok arch now fetch mid [] st hst hok
  rw [pne_nil] at heq
  constructor
  · rw [heq]
    simp
  · have hmem : mid ∈ (processNewEmails arch now fetch [mid] st).1 := by
      rw [heq]; simp
    rw [pne_cons_mem hmem, pne_nil]

theorem c8_second_invocation_skips_witness :
    4 ∈ (processNewEmails archAllOk now0 (fun _ => msg1) [4] []).1
    ∧ processNewEmails archAllOk now0 (fun _ => msg1) [4]
        ((processNewEmails archAllOk now0 (fun _ => msg1) [4] []).1)
      = ((processNewEmails archAllOk now0 (fun _ => msg1) [4] []).1, []) :=
  c8_second_invocation_skips archAllOk now0 (fun _ => msg1) 4 [] (by decide) rfl

/-- C9 (amended): once the initial connection and the immediate first check
have succeeded, the main loop never terminates the process: every loop
iteration — including every one whose check fails — contributes its block
of events (status, poll-interval sleep, check; and after a failure, the
error notification and the fixed 60-second backoff sleep) and the loop
continues with the next iteration, without ever reconnecting; the process
never raises while fuel remains.  (Failures of the initial connection or of
the immediate first check are instead fatal — see the counterexample.) -/
theorem c9_in_loop_backoff_never_fatal (env : RunEnv) (interval fuel : Nat)
    (hc : env.connectRes = .ok ()) (h0 : env.checkRes 0 = .ok ()) :
    runModel env interval fuel
      = ([REv.connected, REv.check 0] ++ iterBlocks env interval 1 fuel, .fuelOut) := by
  unfold runModel
  rw [hc, h0]
  simp [runLoop_eq]

/-- A run environment whose third check fails. -/
def envW : RunEnv :=
  ⟨.ok (), fun k => if k = 2 then .error "boom".data else .ok ()⟩

theorem c9_in_loop_backoff_never_fatal_witness :
    runModel envW 300 3
      = ([REv.connected, REv.check 0] ++ iterBlocks envW 300 1 3, .fuelOut) :=
  c9_in_loop_backoff_never_fatal envW 300 3 rfl rfl

/-- C9 counterexample: a connection or authentication failure during the
initial `connect_to_imap` call is fatal — the run reports the failure and
re-raises, terminating; no one-minute backoff happens and no retry of the
connecting step follows. -/
theorem c9_connect_failure_fatal_counterexample :
    runModel ⟨.error "auth failed".data, fun _ => .ok ()⟩ 300 5
      = ([REv.connectFailed "auth failed".data,
          REv.fatalNotif ("Fatal error: ".data ++ "Failed to connect to IMAP server: ".data
            ++ "auth failed".data)],
         .raised "auth failed".data)
    ∧ REv.sleepSec 60 ∉ (runModel ⟨.error "auth failed".data, fun _ => .ok ()⟩ 300 5).1
    ∧ REv.connected ∉ (runModel ⟨.error "auth failed".data, fun _ => .ok ()⟩ 300 5).1 :=
  ⟨rfl, by decide, by decide⟩

/-- C10: when a message yields at least one extracted URL and every
archive call for it fails, `process_email` sends the error notification
and raises `ValueError` with the exact message
`No Medium articles were found to archive`; the orchestrator then sends
its outer error notification and continues, leaving the identifier out of
the processed set and the message unread, so a later cycle runs the very
same processing again. -/
theorem c10_all_archives_fail_reprocessed (arch : ArchiveFn) (now : List Char)
    (fetch : Nat → EmailMsg) (mid : Nat) (st : List Nat)
    (hst : mid ∉ st)
    (hne : (getEmailBody (fetch mid)).2 ≠ [])
    (hall : ∀ v ∈ (getEmailBody (fetch mid)).2, isOkE (arch v) = false) :
    (processEmail arch now (fetch mid)).attempts = (getEmailBody (fetch mid)).2
    ∧ (processEmail arch now (fetch mid)).outcome = .error valErrMsg
    ∧ (processEmail arch now (fetch mid)).events = [.notif (procErrNotif valErrMsg)]
    ∧ processNewEmails arch now fetch [mid] st
      = (st, [.notif (procErrNotif valErrMsg), .notif (outerErrNotif mid valErrMsg)])
    ∧ processNewEmails arch now fetch [mid] ((processNewEmails arch now fetch [mid] st).1)
      = processNewEmails arch now fetch [mid] st := by
  have hus : ∀ v ∈ (getEmailBody (fetch mid)).2, qualifies v = true ∧ cleanUrl v = v :=
    fun v hv => getEmailBody_urls_spec hv
  have hloop : (archiveLoop arch (getEmailBody (fetch mid)).2).2 = [] :=
    archiveLoop_all_fail arch _ hus hall
  have hpe := @processEmail_error_case arch now (fetch mid) hloop
  have herr : (processEmail arch now (fetch mid)).outcome = .error valErrMsg := by rw [hpe]
  have hev : (processEmail arch now (fetch mid)).events
      = [.notif (procErrNotif valErrMsg)] := by rw [hpe]
  have heq : processNewEmails arch now fetch [mid] st
      = (st, [.notif (procErrNotif valErrMsg), .notif (outerErrNotif mid valErrMsg)]) := by
    rw [pne_cons_error hst herr, pne_nil, hev]
    simp
  refine ⟨?_, herr, hev, heq, ?_⟩
  · rw [processEmail_attempts]
    exact (archiveLoop_char arch _ hus).1
  · rw [heq]
    exact heq

/-- An archive function that always fails. -/
def archAllFail : ArchiveFn := fun _ => .error "FetchFailed".data

theorem c10_all_archives_fail_reprocessed_witness :
    (processEmail archAllFail now0 ((fun _ => msg3) 1)).attempts
      = (getEmailBody ((fun _ => msg3) 1)).2
    ∧ (processEmail archAllFail now0 ((fun _ => msg3) 1)).outcome = .error valErrMsg
    ∧ (processEmail archAllFail now0 ((fun _ => msg3) 1)).events
      = [.notif (procErrNotif valErrMsg)]
    ∧ processNewEmails archAllFail now0 (fun _ => msg3) [1] []
      = ([], [.notif (procErrNotif valErrMsg), .notif (outerErrNotif 1 valErrMsg)])
    ∧ processNewEmails archAllFail now0 (fun _ => msg3) [1]
        ((processNewEmails archAllFail now0 (fun _ => msg3) [1] []).1)
      = processNewEmails archAllFail now0 (fun _ => msg3) [1] [] :=
  c10_all_archives_fail_reprocessed archAllFail now0 (fun _ => msg3) 1 []
    (by decide) (by decide) (by decide)

/-- C6 counterexample: for a concrete message on which extraction fails
(no URLs found), the batch handler does NOT add the identifier to the
processed set and does NOT mark the message read — contradicting the claim
that such a message is still marked processed to avoid reprocessing. -/
theorem c6_marked_processed_counterexample :
    3 ∉ (processNewEmails archOneFail now0 (fun _ => msgNoUrls) [3] []).1
    ∧ Ev.markRead 3 ∉ (processNewEmails archOneFail now0 (fun _ => msgNoUrls) [3] []).2 := by
  decide
